import Mathlib

/-
  Verification development for bin/parse-gas-snapshot.py.

  The script reads a gas snapshot file line by line, keeps lines containing
  the marker "GasBench", splits each on "__", takes segment 1 as the
  collection and segment 2 as the test descriptor, extracts the test name
  (descriptor up to the first "(") and the gas value (descriptor field after
  the first ": ", stripped of whitespace with every ")" removed, parsed by
  the Python int builtin), applies an intrinsic-gas adjustment for mint
  benchmarks of selected collections, records values in a dict of dicts,
  and prints a tab separated table sorted by collection and test name.

  Strings are modelled as lists of characters (List Char).  The Python int
  builtin is modelled for ASCII input: optional surrounding whitespace, an
  optional sign, and a nonempty digit run where single underscores may
  separate digits.  Python dict and set are modelled as association lists
  with insertion order and guarded insertion, which is faithful because the
  program only observes them through membership, indexing and sorted().
-/

abbrev LC := List Char

def lc (s : String) : LC := s.toList

/-- Python whitespace test restricted to the ASCII characters recognised by
str.strip and int: space, tab, newline, carriage return, vertical tab and
form feed. -/
def isPySpace (c : Char) : Bool :=
  c.toNat = 32 || c.toNat = 9 || c.toNat = 10 || c.toNat = 13 || c.toNat = 11 || c.toNat = 12

/-- ASCII decimal digit test. -/
def isDigitC (c : Char) : Bool := 48 ≤ c.toNat && c.toNat ≤ 57

/-- Python str.strip with no arguments: drop whitespace from both ends. -/
def trimPy (l : LC) : LC := ((l.dropWhile isPySpace).reverse.dropWhile isPySpace).reverse

/-- Python substring containment, as in the expression (pat in line). -/
def containsSub (pat : LC) : LC → Bool
  | [] => pat.isEmpty
  | c :: rest => pat.isPrefixOf (c :: rest) || containsSub pat rest

/-- Locate the first occurrence of sep: returns the part before it and the
part after it, or none when sep does not occur. -/
def breakAt (sep : LC) : LC → Option (LC × LC)
  | [] => none
  | c :: rest =>
    if sep.isPrefixOf (c :: rest) then some ([], (c :: rest).drop sep.length)
    else
      match breakAt sep rest with
      | none => none
      | some (pre, post) => some (c :: pre, post)

/-- Fuel driven worker for splitList; the fuel only serves to make the
recursion structural, splitList always passes enough of it. -/
def splitFuel (sep : LC) : Nat → LC → List LC
  | 0, s => [s]
  | fuel + 1, s =>
    match breakAt sep s with
    | none => [s]
    | some (pre, post) => pre :: splitFuel sep fuel post

/-- Python str.split with a nonempty separator: split at every
non-overlapping occurrence, scanning left to right. -/
def splitList (sep s : LC) : List LC := splitFuel sep (s.length + 1) s

/-- Digit run of the Python int builtin: digits with single underscores
allowed between two digits.  The first character is checked by pyIntCore. -/
def pyDigits : LC → Nat → Option Nat
  | [], acc => some acc
  | [c], acc => if isDigitC c then some (acc * 10 + (c.toNat - 48)) else none
  | c :: d :: rest, acc =>
    if isDigitC c then pyDigits (d :: rest) (acc * 10 + (c.toNat - 48))
    else if c = '_' ∧ isDigitC d then pyDigits rest (acc * 10 + (d.toNat - 48))
    else none

/-- Unsigned part of the Python int builtin: nonempty, must start with a
digit (so a leading underscore is rejected). -/
def pyIntCore (l : LC) : Option Nat :=
  match l with
  | [] => none
  | c :: _ => if isDigitC c then pyDigits l 0 else none

/-- The Python int builtin on a string (ASCII fragment): strip whitespace,
optional single sign, digit run with underscores.  Returns none where
Python raises ValueError. -/
def pyInt (s : LC) : Option Int :=
  match trimPy s with
  | [] => none
  | c :: rest =>
    if c = '-' then (pyIntCore rest).map (fun n => -(n : Int))
    else if c = '+' then (pyIntCore rest).map (fun n => (n : Int))
    else (pyIntCore (c :: rest)).map (fun n => (n : Int))

/-- Character for a single decimal digit value. -/
def digitChar (d : Nat) : Char := Char.ofNat (48 + d)

/-- Fuel driven decimal rendering worker; fuel bounds the digit count. -/
def natStrAux : Nat → Nat → LC
  | 0, _ => []
  | _ + 1, 0 => []
  | fuel + 1, n + 1 => natStrAux fuel ((n + 1) / 10) ++ [digitChar ((n + 1) % 10)]

/-- Decimal rendering of a natural number, as Python str does. -/
def natStr (n : Nat) : LC := if n = 0 then ['0'] else natStrAux n n

/-- Decimal rendering of an integer, as Python str and print do. -/
def intStr (i : Int) : LC := if i < 0 then '-' :: natStr i.natAbs else natStr i.natAbs

/-- Lexicographic order on characters by code point, the comparison Python
uses when sorting a list of strings. -/
def lexLe : LC → LC → Bool
  | [], _ => true
  | _ :: _, [] => false
  | a :: as, b :: bs =>
    if a.toNat < b.toNat then true
    else if a.toNat = b.toNat then lexLe as bs
    else false

def sLe (a b : LC) : Prop := lexLe a b = true

instance : DecidableRel sLe := fun a b => inferInstanceAs (Decidable (lexLe a b = true))

/-- The Python sorted builtin on a list of strings: an ascending stable
sort by the lexicographic order. -/
def pySort (l : List LC) : List LC := List.insertionSort sLe l

/-- Dictionary lookup in an association list (Python dict indexing and
membership test). -/
def findVal {β : Type} : List (LC × β) → LC → Option β
  | [], _ => none
  | (k, v) :: rest, t => if k = t then some v else findVal rest t

def keysOf {β : Type} (m : List (LC × β)) : List LC := m.map Prod.fst

/-- Assignment d[test] = gas on an inner dict: overwrite in place when the
key exists, append otherwise (Python dicts keep insertion order). -/
def setTest : List (LC × Int) → LC → Int → List (LC × Int)
  | [], t, g => [(t, g)]
  | (k, v) :: rest, t, g =>
    if k = t then (t, g) :: rest else (k, v) :: setTest rest t g

abbrev Results := List (LC × List (LC × Int))

/-- The combined effect of lines 22-23 and line 38 of the script: ensure an
entry for the collection exists, then assign into its inner dict. -/
def setColl : Results → LC → LC → Int → Results
  | [], c, t, g => [(c, [(t, g)])]
  | (k, m) :: rest, c, t, g =>
    if k = c then (k, setTest m t g) :: rest else (k, m) :: setColl rest c t g

/-- Value stored for a collection and test pair, if any. -/
def tableVal (rs : Results) (c t : LC) : Option Int :=
  (findVal rs c).bind (fun m => findVal m t)

/-- Python set.add modelled on a duplicate-free list. -/
def addTest (ts : List LC) (t : LC) : List LC := if t ∈ ts then ts else ts ++ [t]

def markerL : LC := lc "GasBench"

def dunderL : LC := lc "__"

def parenL : LC := lc "("

def colonSpL : LC := lc ": "

def mintL : LC := lc "mint"

/-- Source line 5: collections_to_adjust. -/
def collectionsToAdjust : List LC := [lc "solmateErc721", lc "edition"]

/-- Source line 7: INTRINSIC_GAS. -/
def intrinsicGas : Int := 21000

def tabC : Char := '\t'

def nlC : Char := '\n'

/-- Uncaught Python exceptions the script can die with: IndexError from
indexing past the end of a list, ValueError from int on a bad literal (the
ValueError message carries the offending token, the IndexError message
does not mention the input at all). -/
inductive PyErr where
  | indexError : PyErr
  | valueError : LC → PyErr
deriving DecidableEq

/-- Outcome of a fallible computation: the ok value or the exception the
process dies with. -/
inductive Res (α : Type) where
  | err : PyErr → Res α
  | ok : α → Res α
deriving DecidableEq

def resToOption {α : Type} : Res α → Option α
  | .err _ => none
  | .ok _v => some _v

/-- Outcome of processing one input line: skipped (no marker), aborted with
an exception, or a measurement (collection, test, gas, adjusted flag). -/
inductive LineOut where
  | skip : LineOut
  | error : PyErr → LineOut
  | ok : LC → LC → Int → Bool → LineOut
deriving DecidableEq

/-- Source line 31 cleanup of the raw gas token: strip then remove every
")" (str.replace with an empty replacement deletes all occurrences). -/
def cleanGasTok (g : LC) : LC := (trimPy g).filter (fun c => c ≠ ')')

/-- Source lines 30-31: gas_tok = tokens[2].split(": "); gas =
int(gas_tok[1].strip().replace(")", "")). -/
def gasValue (tok2 : LC) : Res Int :=
  match (splitList colonSpL tok2).get? 1 with
  | none => .err .indexError
  | some gtok =>
    match pyInt (cleanGasTok gtok) with
    | none => .err (.valueError (cleanGasTok gtok))
    | some g => .ok g

/-- Source lines 33-36: the mint adjustment, n = int(test.split("mint")[1]);
gas += (n - 1) * INTRINSIC_GAS.  The Bool records whether the adjustment
fired (and hence whether a diagnostic line is printed). -/
def adjustGas (collection test : LC) (gas : Int) : Res (Int × Bool) :=
  if collectionsToAdjust.contains collection && mintL.isPrefixOf test then
    match (splitList mintL test).get? 1 with
    | none => .err .indexError
    | some ntok =>
      match pyInt ntok with
      | none => .err (.valueError ntok)
      | some n => .ok (gas + (n - 1) * intrinsicGas, true)
  else .ok (gas, false)

/-- Body of the loop after the marker check, as a function of tokens[1] and
tokens[2] (the only segments the source reads); none models an index past
the end of the token list.  test = tokens[2].split("(")[0] never fails
because split returns at least one segment. -/
def processToks : Option LC → Option LC → LineOut
  | none, _ => .error .indexError
  | some _, none => .error .indexError
  | some collection, some tok2 =>
    match gasValue tok2 with
    | .err e => .error e
    | .ok gas =>
      match adjustGas collection ((splitList parenL tok2).headD []) gas with
      | .err e => .error e
      | .ok (g2, adj) => .ok collection ((splitList parenL tok2).headD []) g2 adj

/-- Source lines 16-38 for a single line: skip lines without the marker,
otherwise split on "__" and process segments 1 and 2.  The partial dict
and set mutations the source performs before a failing index or int call
are dropped here: the process dies on the exception, so they are never
observable in any output. -/
def processLine (line : LC) : LineOut :=
  if containsSub markerL line then
    processToks ((splitList dunderL line).get? 1) ((splitList dunderL line).get? 2)
  else .skip

/-- Parser state: the set of test names, the dict of dicts of results, and
the characters printed to stdout so far (adjustment diagnostics). -/
structure PSt where
  tests : List LC
  results : Results
  diags : LC
deriving DecidableEq

def pInit : PSt := ⟨[], [], []⟩

/-- Source line 36: print("adjusted gas for", collection, test, "to", gas)
writes the arguments joined by single spaces plus a newline to stdout. -/
def diagMsg (c t : LC) (g : Int) : LC :=
  lc "adjusted gas for " ++ c ++ lc " " ++ t ++ lc " to " ++ intStr g ++ lc "\n"

/-- One iteration of the parsing loop. -/
def stepLine (st : PSt) (line : LC) : Res PSt :=
  match processLine line with
  | .skip => .ok st
  | .error e => .err e
  | .ok c t g adj =>
    .ok { tests := addTest st.tests t
          results := setColl st.results c t g
          diags := st.diags ++ (if adj then diagMsg c t g else []) }

/-- The parsing loop over the remaining input lines. -/
def parseFrom (st : PSt) : List LC → Res PSt
  | [] => .ok st
  | l :: ls =>
    match stepLine st l with
    | .ok st2 => parseFrom st2 ls
    | .err e => .err e

/-- Source lines 45-48: one cell, the stored gas value when the test is
present for the collection, otherwise the "-" placeholder. -/
def cellStr (m : List (LC × Int)) (t : LC) : LC :=
  match findVal m t with
  | some g => intStr g
  | none => lc "-"

/-- Source lines 43-49: one printed row; print with end="\t" puts a tab
after the collection name and after every cell, the final print() ends the
row with a newline. -/
def rowStr (sortedTests : List LC) (c : LC) (m : List (LC × Int)) : LC :=
  c ++ [tabC] ++ (sortedTests.map (fun t => cellStr m t ++ [tabC])).flatten ++ [nlC]

/-- Source line 40: the header row, "collection" plus a tab plus the sorted
test names joined by tabs, ended by the newline print appends. -/
def headerStr (tests : List LC) : LC :=
  lc "collection" ++ [tabC] ++ List.intercalate [tabC] (pySort tests) ++ [nlC]

/-- Source lines 40-49: the full table text printed after parsing.  The
inner dict lookup cannot miss because the keys come from the dict itself;
getD only supplies a default to keep the function total. -/
def renderTable (tests : List LC) (rs : Results) : LC :=
  headerStr tests ++
    ((pySort (keysOf rs)).map (fun c => rowStr (pySort tests) c ((findVal rs c).getD []))).flatten

/-- The whole run of main on a list of input lines: everything the process
writes to stdout, or the exception it dies with.  The adjustment
diagnostics precede the table because they are printed during parsing.
The script writes nothing to any other stream. -/
def mainOut (lines : List LC) : Res LC :=
  match parseFrom pInit lines with
  | .err e => .err e
  | .ok st => .ok (st.diags ++ renderTable st.tests st.results)

/-- Gas value a collection and test pair would show after processing the
given lines: the value of the last line that yields a measurement for the
pair (an accumulator threaded left to right). -/
def lastGasFrom (c t : LC) : Option Int → List LC → Option Int
  | acc, [] => acc
  | acc, l :: ls =>
    lastGasFrom c t
      (match processLine l with
       | .ok c2 t2 g _ => if c2 = c ∧ t2 = t then some g else acc
       | _ => acc) ls

def lastGas (ls : List LC) (c t : LC) : Option Int := lastGasFrom c t none ls

/-- Concatenation of the diagnostic lines the adjusted measurements of the
input produce, in input order. -/
def specDiags (ls : List LC) : LC :=
  (ls.map (fun l =>
    match processLine l with
    | .ok c t g true => diagMsg c t g
    | _ => [])).flatten

def gasMarkerL : LC := lc "gas: "

/-- Gas derivation as claim C5 words it: locate the substring following the
marker "gas: " in the test descriptor, strip surrounding whitespace and a
trailing closing parenthesis, parse the result as an integer, altering no
other character of the token. -/
def claimGas5 (tok2 : LC) : Option Int :=
  match breakAt gasMarkerL tok2 with
  | none => none
  | some (_, rest) =>
    let t := trimPy rest
    let t2 := if t.getLast? = some ')' then t.dropLast else t
    pyInt t2

/-- Gas derivation as amended for claim C5: the field of the descriptor
between the first and second occurrence of ": " (to the end when ": "
occurs once; error when it does not occur), stripped of surrounding
whitespace with every ")" deleted, parsed by the Python int builtin. -/
def amendedGas5 (tok2 : LC) : Option Int :=
  match breakAt colonSpL tok2 with
  | none => none
  | some (_, rest) =>
    let fld :=
      match breakAt colonSpL rest with
      | none => rest
      | some (pre, _) => pre
    pyInt (cleanGasTok fld)

/-- Cell content as claim C4 words it: the integer gas value when a
measurement exists for the pair, the "-" placeholder otherwise. -/
def claimCell (rs : Results) (c t : LC) : LC :=
  match tableVal rs c t with
  | some g => intStr g
  | none => lc "-"

/-- Rendering as claim C4 words it: same header, then per collection (in
sorted order) a row of the name and the cells separated by tabs and
terminated by a newline, with no trailing tab. -/
def claimRender4 (tests : List LC) (rs : Results) : LC :=
  headerStr tests ++
    ((pySort (keysOf rs)).map
      (fun c => List.intercalate [tabC] (c :: (pySort tests).map (claimCell rs c)) ++ [nlC])).flatten

/-- Concrete input lines used by witnesses and counterexamples. -/
def lineMint1 : LC := lc "GasBench:test__edition__mint1() (gas: 7)\n"

def lineBasic : LC := lc "GasBench__c__f() (gas: 5)\n"

def lineDup2 : LC := lc "GasBench__c__f() (gas: 999)\n"

def lineNoGasMarker : LC := lc "GasBench__c__f(x: 5)\n"

def lineNeg : LC := lc "GasBench__c__f() (gas: -5)\n"

def lineBad : LC := lc "GasBench nosegments\n"

def lineExtraSegs : LC := lc "GasBench__c__f() (gas: 5)__junk__more\n"

def lineTrunc : LC := lc "GasBench__c__f() (gas: 5)"

/-- Descriptor of a mint benchmark with count n and raw gas g, written in
the grouping the proofs about it use; flattened it reads
mint(n)() (gas: (g)). -/
def mintDesc (n g : Nat) : LC :=
  (mintL ++ natStr n) ++ (parenL ++ (lc ") (gas" ++ (colonSpL ++ (natStr g ++ lc ")"))))

/-
  Part 2: lemmas.
-/

theorem isPrefixOf_append_self (l t : LC) : l.isPrefixOf (l ++ t) = true := by
  rw [List.isPrefixOf_iff_prefix]
  exact List.prefix_append _ _

theorem isPrefixOf_false_of_ne (c0 c : Char) (st rest : LC) (h : c ≠ c0) :
    (c0 :: st).isPrefixOf (c :: rest) = false := by
  rw [Bool.eq_false_iff]
  intro hT
  rw [List.isPrefixOf_iff_prefix, List.cons_prefix_cons] at hT
  exact absurd hT.1.symm h

theorem breakAt_none_of_head_notMem (c0 : Char) (stail s : LC)
    (h : ∀ c ∈ s, c ≠ c0) : breakAt (c0 :: stail) s = none := by
  induction s with
  | nil => rfl
  | cons c rest ih =>
    have hc : c ≠ c0 := h c (List.mem_cons_self c rest)
    rw [breakAt, isPrefixOf_false_of_ne c0 c stail rest hc]
    simp [ih (fun x hx => h x (List.mem_cons_of_mem _ hx))]

theorem breakAt_boundary (c0 : Char) (stail a b : LC)
    (ha : ∀ c ∈ a, c ≠ c0) :
    breakAt (c0 :: stail) (a ++ ((c0 :: stail) ++ b)) = some (a, b) := by
  induction a with
  | nil =>
    have hpre : (c0 :: stail).isPrefixOf (c0 :: (stail ++ b)) = true := by
      rw [List.isPrefixOf_iff_prefix]
      exact List.prefix_append _ _
    have hdrop : (c0 :: (stail ++ b)).drop (c0 :: stail).length = b := by
      have := List.drop_left (c0 :: stail) b
      simpa using this
    simp only [List.nil_append, List.cons_append]
    rw [breakAt, hpre]
    simp [hdrop]
  | cons x a ih =>
    have hx : x ≠ c0 := ha x (List.mem_cons_self x a)
    have ih2 := ih (fun y hy => ha y (List.mem_cons_of_mem _ hy))
    simp only [List.cons_append]
    rw [breakAt, isPrefixOf_false_of_ne c0 x stail _ hx]
    simp only [List.cons_append] at ih2
    simp [ih2]

theorem splitFuel_of_none (sep s : LC) (f : Nat) (h : breakAt sep s = none) :
    splitFuel sep f s = [s] := by
  cases f with
  | zero => rfl
  | succ f => simp [splitFuel, h]

theorem splitList_eq_cons (sep s pre post : LC) (h : breakAt sep s = some (pre, post)) :
    splitList sep s = pre :: splitFuel sep s.length post := by
  simp [splitList, splitFuel, h]

theorem splitList_of_none (sep s : LC) (h : breakAt sep s = none) :
    splitList sep s = [s] := splitFuel_of_none sep s _ h

theorem splitList_boundary (c0 : Char) (stail a b : LC)
    (ha : ∀ c ∈ a, c ≠ c0) (hb : ∀ c ∈ b, c ≠ c0) :
    splitList (c0 :: stail) (a ++ ((c0 :: stail) ++ b)) = [a, b] := by
  rw [splitList_eq_cons _ _ a b (breakAt_boundary c0 stail a b ha)]
  rw [splitFuel_of_none _ _ _ (breakAt_none_of_head_notMem c0 stail b hb)]

theorem get1_splitList (sep s : LC) :
    (splitList sep s).get? 1 =
      match breakAt sep s with
      | none => none
      | some (_, post) =>
        some (match breakAt sep post with
              | none => post
              | some (pre2, _) => pre2) := by
  cases h : breakAt sep s with
  | none => simp [splitList_of_none sep s h]
  | some pp =>
    obtain ⟨pre, post⟩ := pp
    rw [splitList_eq_cons sep s pre post h]
    have hs : s ≠ [] := by
      intro he
      rw [he] at h
      simp [breakAt] at h
    obtain ⟨c, rest, rfl⟩ := List.exists_cons_of_ne_nil hs
    cases h2 : breakAt sep post with
    | none => simp [List.length_cons, splitFuel, h2]
    | some qq =>
      obtain ⟨pre2, post2⟩ := qq
      simp [List.length_cons, splitFuel, h2]

theorem headD_splitList (sep s : LC) :
    (splitList sep s).headD [] =
      match breakAt sep s with
      | none => s
      | some (pre, _) => pre := by
  cases h : breakAt sep s with
  | none => simp [splitList_of_none sep s h]
  | some pp =>
    obtain ⟨pre, post⟩ := pp
    rw [splitList_eq_cons sep s pre post h]
    simp

theorem digitChar_toNat (d : Nat) (h : d < 10) : (digitChar d).toNat = 48 + d := by
  interval_cases d <;> decide

theorem natStrAux_chars (f : Nat) : ∀ (n : Nat), ∀ c ∈ natStrAux f n, 48 ≤ c.toNat ∧ c.toNat ≤ 57 := by
  induction f with
  | zero => intro n c hc; simp [natStrAux] at hc
  | succ f ih =>
    intro n c hc
    cases n with
    | zero => simp [natStrAux] at hc
    | succ m =>
      rw [natStrAux] at hc
      rcases List.mem_append.mp hc with h1 | h2
      · exact ih _ c h1
      · have hce : c = digitChar ((m + 1) % 10) := by simpa using h2
        subst hce
        have h10 : (m + 1) % 10 < 10 := Nat.mod_lt _ (by norm_num)
        rw [digitChar_toNat _ h10]
        omega

theorem natStrAux_val (f : Nat) : ∀ (n : Nat), n ≤ f →
    List.foldl (fun a c => a * 10 + (c.toNat - 48)) 0 (natStrAux f n) = n := by
  induction f with
  | zero =>
    intro n hn
    interval_cases n
    rfl
  | succ f ih =>
    intro n hn
    cases n with
    | zero => rfl
    | succ m =>
      rw [natStrAux, List.foldl_append]
      have hq : (m + 1) / 10 ≤ f := by
        have := Nat.div_lt_self (Nat.succ_pos m) (by norm_num : 1 < 10)
        omega
      rw [ih _ hq]
      simp only [List.foldl_cons, List.foldl_nil]
      have h10 : (m + 1) % 10 < 10 := Nat.mod_lt _ (by norm_num)
      rw [digitChar_toNat _ h10]
      have := Nat.div_add_mod (m + 1) 10
      omega

theorem natStrAux_ne_nil (f n : Nat) (hf : n ≤ f) (hn : n ≠ 0) : natStrAux f n ≠ [] := by
  cases f with
  | zero => omega
  | succ f =>
    cases n with
    | zero => omega
    | succ m => simp [natStrAux]

theorem natStr_chars (n : Nat) : ∀ c ∈ natStr n, 48 ≤ c.toNat ∧ c.toNat ≤ 57 := by
  unfold natStr
  split
  · intro c hc
    have : c = '0' := by simpa using hc
    subst this
    exact ⟨by decide, by decide⟩
  · exact natStrAux_chars n n

theorem natStr_ne_nil (n : Nat) : natStr n ≠ [] := by
  unfold natStr
  split
  · simp
  · exact natStrAux_ne_nil n n le_rfl (by assumption)

theorem natStr_val (n : Nat) :
    List.foldl (fun a c => a * 10 + (c.toNat - 48)) 0 (natStr n) = n := by
  unfold natStr
  split
  · rename_i h
    subst h
    decide
  · exact natStrAux_val n n le_rfl

theorem natStr_ne_char (n : Nat) (x : Char) (hx : x.toNat < 48 ∨ 57 < x.toNat) :
    ∀ c ∈ natStr n, c ≠ x := by
  intro c hc he
  subst he
  have := natStr_chars n c hc
  omega

theorem isPySpace_false_of_digit (c : Char) (h : 48 ≤ c.toNat ∧ c.toNat ≤ 57) :
    isPySpace c = false := by
  unfold isPySpace
  simp only [Bool.or_eq_false_iff, decide_eq_false_iff_not]
  omega

theorem isDigitC_of_range (c : Char) (h : 48 ≤ c.toNat ∧ c.toNat ≤ 57) : isDigitC c = true := by
  unfold isDigitC
  simp only [Bool.and_eq_true, decide_eq_true_eq]
  exact h

theorem trimPy_eq_self (l : LC) (h : ∀ c ∈ l, isPySpace c = false) : trimPy l = l := by
  unfold trimPy
  have h1 : l.dropWhile isPySpace = l := by
    cases l with
    | nil => rfl
    | cons c rest =>
      rw [List.dropWhile_cons]
      simp [h c (List.mem_cons_self _ _)]
  rw [h1]
  have h2 : l.reverse.dropWhile isPySpace = l.reverse := by
    cases hr : l.reverse with
    | nil => rfl
    | cons c rest =>
      rw [List.dropWhile_cons]
      have hc : c ∈ l := by
        rw [← List.mem_reverse, hr]
        exact List.mem_cons_self _ _
      simp [h c hc]
  rw [h2, List.reverse_reverse]

theorem pyDigits_all_digits : ∀ (l : LC), (∀ c ∈ l, isDigitC c = true) → ∀ (acc : Nat),
    pyDigits l acc = some (List.foldl (fun a c => a * 10 + (c.toNat - 48)) acc l) := by
  intro l
  induction l with
  | nil => intro h acc; rfl
  | cons c rest ih =>
    intro h acc
    have hc := h c (List.mem_cons_self _ _)
    cases rest with
    | nil => simp [pyDigits, hc]
    | cons d rest2 =>
      rw [pyDigits, if_pos hc]
      rw [ih (fun x hx => h x (List.mem_cons_of_mem _ hx))]
      simp

theorem pyIntCore_digits (l : LC) (hne : l ≠ []) (h : ∀ c ∈ l, isDigitC c = true) :
    pyIntCore l = some (List.foldl (fun a c => a * 10 + (c.toNat - 48)) 0 l) := by
  cases l with
  | nil => exact absurd rfl hne
  | cons c rest =>
    rw [pyIntCore]
    rw [if_pos (h c (List.mem_cons_self _ _))]
    exact pyDigits_all_digits _ h 0

theorem pyInt_natStr (n : Nat) : pyInt (natStr n) = some (n : Int) := by
  have hchars := natStr_chars n
  have hne := natStr_ne_nil n
  have hnospace : ∀ c ∈ natStr n, isPySpace c = false :=
    fun c hc => isPySpace_false_of_digit c (hchars c hc)
  unfold pyInt
  rw [trimPy_eq_self _ hnospace]
  cases hs : natStr n with
  | nil => exact absurd hs hne
  | cons c rest =>
    have hc := hchars c (by rw [hs]; exact List.mem_cons_self _ _)
    have hm : ('-').toNat = 45 := by decide
    have hp : ('+').toNat = 43 := by decide
    have hcm : ¬ (c = '-') := by
      intro he
      rw [he, hm] at hc
      omega
    have hcp : ¬ (c = '+') := by
      intro he
      rw [he, hp] at hc
      omega
    dsimp only
    rw [if_neg hcm, if_neg hcp]
    rw [← hs]
    rw [pyIntCore_digits _ hne (fun x hx => isDigitC_of_range x (hchars x hx))]
    rw [natStr_val n]
    rfl

theorem lexLe_cons (x y : Char) (xs ys : LC) :
    lexLe (x :: xs) (y :: ys) =
      if x.toNat < y.toNat then true
      else if x.toNat = y.toNat then lexLe xs ys else false := rfl

theorem lexLe_total : ∀ (a b : LC), lexLe a b = true ∨ lexLe b a = true := by
  intro a
  induction a with
  | nil => intro b; left; rfl
  | cons x xs ih =>
    intro b
    cases b with
    | nil => right; rfl
    | cons y ys =>
      rw [lexLe_cons, lexLe_cons]
      rcases Nat.lt_trichotomy x.toNat y.toNat with h | h | h
      · left; rw [if_pos h]
      · rw [if_neg (by omega), if_pos h, if_neg (by omega), if_pos h.symm]
        exact ih ys
      · right; rw [if_pos h]

theorem lexLe_trans : ∀ (a b c : LC), lexLe a b = true → lexLe b c = true → lexLe a c = true := by
  intro a
  induction a with
  | nil => intro b c h1 h2; rfl
  | cons x xs ih =>
    intro b c h1 h2
    cases b with
    | nil => simp [lexLe] at h1
    | cons y ys =>
      cases c with
      | nil => simp [lexLe] at h2
      | cons z zs =>
        rw [lexLe_cons] at h1 h2 ⊢
        rcases Nat.lt_trichotomy x.toNat y.toNat with hxy | hxy | hxy
        · rcases Nat.lt_trichotomy y.toNat z.toNat with hyz | hyz | hyz
          · rw [if_pos (by omega)]
          · rw [if_pos (by omega)]
          · rw [if_neg (by omega), if_neg (by omega)] at h2
            simp at h2
        · rcases Nat.lt_trichotomy y.toNat z.toNat with hyz | hyz | hyz
          · rw [if_pos (by omega)]
          · rw [if_neg (by omega), if_pos hxy] at h1
            rw [if_neg (by omega), if_pos hyz] at h2
            rw [if_neg (by omega), if_pos (by omega)]
            exact ih ys zs h1 h2
          · rw [if_neg (by omega), if_neg (by omega)] at h2
            simp at h2
        · rw [if_neg (by omega), if_neg (by omega)] at h1
          simp at h1

instance : IsTotal LC sLe := ⟨fun a b => lexLe_total a b⟩

instance : IsTrans LC sLe := ⟨fun a b c => lexLe_trans a b c⟩

theorem pySort_sorted (l : List LC) : List.Sorted sLe (pySort l) :=
  List.sorted_insertionSort sLe l

theorem pySort_perm (l : List LC) : (pySort l).Perm l :=
  List.perm_insertionSort sLe l

theorem findVal_setTest_self (m : List (LC × Int)) (t : LC) (g : Int) :
    findVal (setTest m t g) t = some g := by
  induction m with
  | nil => simp [setTest, findVal]
  | cons p rest ih =>
    obtain ⟨k, v⟩ := p
    by_cases hk : k = t
    · simp [setTest, hk, findVal]
    · simp [setTest, hk, findVal, ih]

theorem findVal_setTest_other (m : List (LC × Int)) (t t2 : LC) (g : Int) (h : t2 ≠ t) :
    findVal (setTest m t g) t2 = findVal m t2 := by
  induction m with
  | nil => simp [setTest, findVal, Ne.symm h]
  | cons p rest ih =>
    obtain ⟨k, v⟩ := p
    by_cases hk : k = t
    · subst hk
      simp [setTest, findVal, Ne.symm h]
    · simp [setTest, hk, findVal, ih]

theorem findVal_setColl_self (rs : Results) (c t : LC) (g : Int) :
    findVal (setColl rs c t g) c = some (setTest ((findVal rs c).getD []) t g) := by
  induction rs with
  | nil => simp [setColl, findVal, setTest]
  | cons p rest ih =>
    obtain ⟨k, m⟩ := p
    by_cases hk : k = c
    · subst hk
      simp [setColl, findVal]
    · simp [setColl, hk, findVal, ih]

theorem findVal_setColl_other (rs : Results) (c c2 t : LC) (g : Int) (h : c2 ≠ c) :
    findVal (setColl rs c t g) c2 = findVal rs c2 := by
  induction rs with
  | nil => simp [setColl, findVal, Ne.symm h]
  | cons p rest ih =>
    obtain ⟨k, m⟩ := p
    by_cases hk : k = c
    · subst hk
      simp [setColl, findVal, Ne.symm h]
    · simp [setColl, hk, findVal, ih]

theorem tableVal_setColl (rs : Results) (c t : LC) (g : Int) (c2 t2 : LC) :
    tableVal (setColl rs c t g) c2 t2 =
      if c = c2 ∧ t = t2 then some g else tableVal rs c2 t2 := by
  by_cases hc : c = c2
  · subst hc
    rw [tableVal, findVal_setColl_self]
    by_cases ht : t = t2
    · subst ht
      simp [findVal_setTest_self]
    · rw [if_neg (by tauto)]
      have hbind : ∀ (m0 : List (LC × Int)),
          (some m0).bind (fun m => findVal m t2) = findVal m0 t2 := fun m0 => rfl
      rw [hbind, findVal_setTest_other _ _ _ _ (Ne.symm ht), tableVal]
      cases hf : findVal rs c <;> simp [findVal]
  · rw [tableVal, findVal_setColl_other _ _ _ _ _ (Ne.symm hc), if_neg (by tauto), tableVal]

theorem keysOf_setTest (m : List (LC × Int)) (t : LC) (g : Int) :
    keysOf (setTest m t g) = if t ∈ keysOf m then keysOf m else keysOf m ++ [t] := by
  induction m with
  | nil => simp [setTest, keysOf]
  | cons p rest ih =>
    obtain ⟨k, v⟩ := p
    by_cases hk : k = t
    · subst hk
      simp [setTest, keysOf]
    · have hst : setTest ((k, v) :: rest) t g = (k, v) :: setTest rest t g := by
        simp [setTest, hk]
      have hkeys : keysOf ((k, v) :: rest) = k :: keysOf rest := rfl
      have hkeys2 : keysOf ((k, v) :: setTest rest t g) = k :: keysOf (setTest rest t g) := rfl
      have hmem : (t ∈ k :: keysOf rest) ↔ t ∈ keysOf rest := by
        simp [Ne.symm hk]
      rw [hst, hkeys, hkeys2]
      by_cases hm : t ∈ keysOf rest
      · rw [if_pos (hmem.mpr hm), ih, if_pos hm]
      · rw [if_neg (fun hx => hm (hmem.mp hx)), ih, if_neg hm]
        simp

theorem nodup_keys_setTest (m : List (LC × Int)) (t : LC) (g : Int)
    (h : (keysOf m).Nodup) : (keysOf (setTest m t g)).Nodup := by
  rw [keysOf_setTest]
  split
  · exact h
  · rename_i hmem
    simp [List.nodup_append, h]
    exact hmem

theorem keysOf_setColl (rs : Results) (c t : LC) (g : Int) :
    keysOf (setColl rs c t g) = if c ∈ keysOf rs then keysOf rs else keysOf rs ++ [c] := by
  induction rs with
  | nil => simp [setColl, keysOf]
  | cons p rest ih =>
    obtain ⟨k, m⟩ := p
    by_cases hk : k = c
    · subst hk
      simp [setColl, keysOf]
    · have hst : setColl ((k, m) :: rest) c t g = (k, m) :: setColl rest c t g := by
        simp [setColl, hk]
      have hkeys : keysOf ((k, m) :: rest) = k :: keysOf rest := rfl
      have hkeys2 : keysOf ((k, m) :: setColl rest c t g) = k :: keysOf (setColl rest c t g) := rfl
      have hmem : (c ∈ k :: keysOf rest) ↔ c ∈ keysOf rest := by
        simp [Ne.symm hk]
      rw [hst, hkeys, hkeys2]
      by_cases hm : c ∈ keysOf rest
      · rw [if_pos (hmem.mpr hm), ih, if_pos hm]
      · rw [if_neg (fun hx => hm (hmem.mp hx)), ih, if_neg hm]
        simp

theorem nodup_keys_setColl (rs : Results) (c t : LC) (g : Int)
    (h : (keysOf rs).Nodup) : (keysOf (setColl rs c t g)).Nodup := by
  rw [keysOf_setColl]
  split
  · exact h
  · rename_i hmem
    simp [List.nodup_append, h]
    exact hmem

theorem inner_nodup_setColl (rs : Results) (c t : LC) (g : Int)
    (h : ∀ p ∈ rs, (keysOf p.2).Nodup) :
    ∀ p ∈ setColl rs c t g, (keysOf p.2).Nodup := by
  induction rs with
  | nil =>
    intro p hp
    simp [setColl] at hp
    subst hp
    simp [keysOf, setTest]
  | cons q rest ih =>
    obtain ⟨k, m⟩ := q
    intro p hp
    by_cases hk : k = c
    · subst hk
      rw [show setColl ((k, m) :: rest) k t g = (k, setTest m t g) :: rest from by
        simp [setColl]] at hp
      rcases List.mem_cons.mp hp with hp1 | hp1
      · subst hp1
        exact nodup_keys_setTest m t g (h (k, m) (List.mem_cons_self _ _))
      · exact h p (List.mem_cons_of_mem _ hp1)
    · rw [show setColl ((k, m) :: rest) c t g = (k, m) :: setColl rest c t g from by
        simp [setColl, hk]] at hp
      rcases List.mem_cons.mp hp with hp1 | hp1
      · subst hp1
        exact h _ (List.mem_cons_self _ _)
      · exact ih (fun q hq => h q (List.mem_cons_of_mem _ hq)) p hp1

theorem mem_addTest (ts : List LC) (t x : LC) : x ∈ addTest ts t ↔ x ∈ ts ∨ x = t := by
  unfold addTest
  split
  · rename_i hmem
    constructor
    · exact Or.inl
    · rintro (hx | rfl)
      · exact hx
      · exact hmem
  · simp

theorem nodup_addTest (ts : List LC) (t : LC) (h : ts.Nodup) : (addTest ts t).Nodup := by
  unfold addTest
  split
  · exact h
  · rename_i hmem
    simp [List.nodup_append, h]
    exact hmem

theorem parseFrom_tableVal (ls : List LC) : ∀ (st st2 : PSt) (c t : LC),
    parseFrom st ls = .ok st2 →
    tableVal st2.results c t = lastGasFrom c t (tableVal st.results c t) ls := by
  induction ls with
  | nil =>
    intro st st2 c t h
    simp [parseFrom] at h
    subst h
    rfl
  | cons l ls ih =>
    intro st st2 c t h
    rw [parseFrom] at h
    cases hp : processLine l with
    | skip =>
      simp only [stepLine, hp] at h
      rw [lastGasFrom]
      simp only [hp]
      exact ih st st2 c t h
    | error e =>
      simp only [stepLine, hp] at h
      simp at h
    | ok c2 t2 g adj =>
      simp only [stepLine, hp] at h
      rw [lastGasFrom]
      simp only [hp]
      rw [ih _ st2 c t h]
      congr 1
      exact tableVal_setColl st.results c2 t2 g c t

theorem parseFrom_diags (ls : List LC) : ∀ (st st2 : PSt),
    parseFrom st ls = .ok st2 → st2.diags = st.diags ++ specDiags ls := by
  induction ls with
  | nil =>
    intro st st2 h
    simp [parseFrom] at h
    subst h
    simp [specDiags]
  | cons l ls ih =>
    intro st st2 h
    rw [parseFrom] at h
    cases hp : processLine l with
    | skip =>
      simp only [stepLine, hp] at h
      rw [ih _ _ h]
      simp [specDiags, hp]
    | error e =>
      simp only [stepLine, hp] at h
      simp at h
    | ok c2 t2 g adj =>
      simp only [stepLine, hp] at h
      rw [ih _ _ h]
      cases adj <;> simp [specDiags, hp, List.append_assoc]

theorem parseFrom_tests_nodup (ls : List LC) : ∀ (st st2 : PSt),
    parseFrom st ls = .ok st2 → st.tests.Nodup → st2.tests.Nodup := by
  induction ls with
  | nil =>
    intro st st2 h hn
    simp [parseFrom] at h
    subst h
    exact hn
  | cons l ls ih =>
    intro st st2 h hn
    rw [parseFrom] at h
    cases hp : processLine l with
    | skip =>
      simp only [stepLine, hp] at h
      exact ih _ _ h hn
    | error e =>
      simp only [stepLine, hp] at h
      simp at h
    | ok c2 t2 g adj =>
      simp only [stepLine, hp] at h
      exact ih _ _ h (nodup_addTest _ _ hn)

theorem parseFrom_results_nodup (ls : List LC) : ∀ (st st2 : PSt),
    parseFrom st ls = .ok st2 →
    (keysOf st.results).Nodup → (∀ p ∈ st.results, (keysOf p.2).Nodup) →
    (keysOf st2.results).Nodup ∧ ∀ p ∈ st2.results, (keysOf p.2).Nodup := by
  induction ls with
  | nil =>
    intro st st2 h h1 h2
    simp [parseFrom] at h
    subst h
    exact ⟨h1, h2⟩
  | cons l ls ih =>
    intro st st2 h h1 h2
    rw [parseFrom] at h
    cases hp : processLine l with
    | skip =>
      simp only [stepLine, hp] at h
      exact ih _ _ h h1 h2
    | error e =>
      simp only [stepLine, hp] at h
      simp at h
    | ok c2 t2 g adj =>
      simp only [stepLine, hp] at h
      exact ih _ _ h (nodup_keys_setColl _ _ _ _ h1) (inner_nodup_setColl _ _ _ _ h2)

theorem parseFrom_tests_mem (ls : List LC) : ∀ (st st2 : PSt) (t : LC),
    parseFrom st ls = .ok st2 →
    (t ∈ st2.tests ↔ t ∈ st.tests ∨ ∃ l ∈ ls, ∃ c g a, processLine l = .ok c t g a) := by
  induction ls with
  | nil =>
    intro st st2 t h
    simp [parseFrom] at h
    subst h
    simp
  | cons l ls ih =>
    intro st st2 t h
    rw [parseFrom] at h
    cases hp : processLine l with
    | skip =>
      simp only [stepLine, hp] at h
      rw [ih _ _ t h]
      simp only [List.mem_cons, or_and_right, exists_or, exists_eq_left, hp]
      constructor
      · intro hx
        rcases hx with hx | hx
        · exact Or.inl hx
        · exact Or.inr (Or.inr hx)
      · intro hx
        rcases hx with hx | hx | hx
        · exact Or.inl hx
        · simp at hx
        · exact Or.inr hx
    | error e =>
      simp only [stepLine, hp] at h
      simp at h
    | ok c2 t2 g adj =>
      simp only [stepLine, hp] at h
      rw [ih _ _ t h]
      have haddm : t ∈ addTest st.tests t2 ↔ t ∈ st.tests ∨ t = t2 := mem_addTest _ _ _
      rw [haddm]
      simp only [List.mem_cons, or_and_right, exists_or, exists_eq_left, hp]
      have hl : (∃ c g2 a, (LineOut.ok c2 t2 g adj) = LineOut.ok c t g2 a) ↔ t = t2 := by
        constructor
        · rintro ⟨c, g2, a, he⟩
          injection he with h1 h2 h3 h4
          exact h2.symm
        · rintro rfl
          exact ⟨c2, g, adj, rfl⟩
      rw [hl]
      tauto

theorem intercalate_cons_cons (s a b : LC) (l : List LC) :
    List.intercalate s (a :: b :: l) = a ++ s ++ List.intercalate s (b :: l) := by
  simp [List.intercalate, List.intersperse]

theorem intercalate_singleton (s a : LC) : List.intercalate s [a] = a := by
  simp [List.intercalate]

theorem row_intercalate (cells : List LC) : ∀ (start : LC),
    start ++ [tabC] ++ (cells.map (fun x => x ++ [tabC])).flatten =
      List.intercalate [tabC] (start :: cells) ++ [tabC] := by
  induction cells with
  | nil =>
    intro start
    simp [intercalate_singleton]
  | cons x xs ih =>
    intro start
    rw [intercalate_cons_cons]
    have ih2 := ih x
    simp only [List.map_cons, List.flatten_cons, List.append_assoc] at ih2 ⊢
    rw [ih2]

theorem containsSub_self_append (x b : LC) : containsSub x (x ++ b) = true := by
  cases x with
  | nil => cases b <;> simp [containsSub, List.isPrefixOf]
  | cons c cs =>
    rw [show (c :: cs) ++ b = c :: (cs ++ b) from rfl, containsSub]
    rw [show c :: (cs ++ b) = (c :: cs) ++ b from rfl]
    rw [isPrefixOf_append_self]
    simp

theorem containsSub_append_left (x s a : LC) (h : containsSub x s = true) :
    containsSub x (a ++ s) = true := by
  induction a with
  | nil => exact h
  | cons c a ih =>
    rw [List.cons_append, containsSub, ih]
    simp

theorem findVal_of_mem_keys {β : Type} (rs : List (LC × β)) (c : LC) (h : c ∈ keysOf rs) :
    ∃ m, findVal rs c = some m := by
  induction rs with
  | nil => simp [keysOf] at h
  | cons p rest ih =>
    obtain ⟨k, v⟩ := p
    by_cases hk : k = c
    · exact ⟨v, by simp [findVal, hk]⟩
    · have hmem : c ∈ keysOf rest := by
        rcases List.mem_cons.mp h with h1 | h1
        · exact absurd h1.symm hk
        · exact h1
      obtain ⟨m, hm⟩ := ih hmem
      exact ⟨m, by simp [findVal, hk, hm]⟩

theorem claimCell_eq_cellStr (rs : Results) (c t : LC) (m : List (LC × Int))
    (hm : findVal rs c = some m) : claimCell rs c t = cellStr m t := by
  unfold claimCell cellStr tableVal
  rw [hm]
  rfl

theorem rowStr_claim (tests2 : List LC) (c : LC) (rs : Results) (m : List (LC × Int))
    (hm : findVal rs c = some m) :
    rowStr tests2 c m =
      List.intercalate [tabC] (c :: tests2.map (claimCell rs c)) ++ [tabC] ++ [nlC] := by
  rw [rowStr]
  have hcells : tests2.map (fun t => cellStr m t ++ [tabC]) =
      (tests2.map (claimCell rs c)).map (fun x => x ++ [tabC]) := by
    rw [List.map_map]
    apply List.map_congr_left
    intro t ht
    simp only [Function.comp_apply]
    rw [claimCell_eq_cellStr rs c t m hm]
  rw [hcells, row_intercalate]

/-- Claim C10: for matched lines the loop body only reads segments 1 and 2
of the double-underscore split, so any two matched lines agreeing on those
two segments process identically; in particular segments after the third
are ignored and a descriptor is truncated at the next double delimiter. -/
theorem c10_segment_usage (l1 l2 : LC)
    (h1 : containsSub markerL l1 = true) (h2 : containsSub markerL l2 = true)
    (e1 : (splitList dunderL l1).get? 1 = (splitList dunderL l2).get? 1)
    (e2 : (splitList dunderL l1).get? 2 = (splitList dunderL l2).get? 2) :
    processLine l1 = processLine l2 := by
  rw [processLine, processLine, if_pos h1, if_pos h2, e1, e2]

/-- Witness for claim C10: a line with five segments processes exactly like
its three-segment truncation, and parses without error. -/
theorem c10_segment_usage_witness :
    (splitList dunderL lineExtraSegs).length = 5 ∧
    processLine lineExtraSegs = processLine lineTrunc ∧
    processLine lineTrunc = .ok (lc "c") (lc "f") 5 false :=
  ⟨by decide,
   c10_segment_usage lineExtraSegs lineTrunc (by decide) (by decide) (by decide) (by decide),
   by decide⟩

/-- Claim C6: the value recorded for a pair is the one of the last input
line yielding a measurement for that pair (last write wins, duplicates are
not errors), and every collection key and every test key within a
collection occurs at most once in the result table. -/
theorem c6_last_write_wins (ls : List LC) (c t : LC) (st : PSt)
    (h : parseFrom pInit ls = .ok st) :
    tableVal st.results c t = lastGas ls c t ∧
    (keysOf st.results).Nodup ∧ ∀ p ∈ st.results, (keysOf p.2).Nodup := by
  refine ⟨?_, ?_, ?_⟩
  · have hv := parseFrom_tableVal ls pInit st c t h
    rw [hv]
    rfl
  · exact (parseFrom_results_nodup ls pInit st h (by simp [pInit, keysOf]) (by simp [pInit])).1
  · exact (parseFrom_results_nodup ls pInit st h (by simp [pInit, keysOf]) (by simp [pInit])).2

/-- Witness for claim C6: two duplicate lines for pair (c, f), gas 5 then
gas 999; parsing succeeds and the table stores 999, the later value. -/
theorem c6_last_write_wins_witness :
    parseFrom pInit [lineBasic, lineDup2] = .ok ⟨[lc "f"], [(lc "c", [(lc "f", 999)])], []⟩ ∧
    tableVal [(lc "c", [(lc "f", 999)])] (lc "c") (lc "f") =
      lastGas [lineBasic, lineDup2] (lc "c") (lc "f") ∧
    lastGas [lineBasic, lineDup2] (lc "c") (lc "f") = some 999 :=
  ⟨by decide,
   (c6_last_write_wins [lineBasic, lineDup2] (lc "c") (lc "f")
     ⟨[lc "f"], [(lc "c", [(lc "f", 999)])], []⟩ (by decide)).1,
   by decide⟩

/-- Claim C4 (amended): render emits, after the header, exactly one row per
collection with the collections in sorted order; each row is the name and
then one cell per sorted test name, the gas value when a measurement
exists and the "-" placeholder otherwise, but every cell (including the
last) is followed by a tab, so a trailing tab precedes the newline.  The
original claim, with no tab before the newline, fails: see the
counterexample. -/
theorem c4_rows (tests : List LC) (rs : Results) :
    renderTable tests rs =
      headerStr tests ++
        ((pySort (keysOf rs)).map
          (fun c => List.intercalate [tabC] (c :: (pySort tests).map (claimCell rs c)) ++
            [tabC] ++ [nlC])).flatten ∧
    List.Sorted sLe (pySort (keysOf rs)) ∧ (pySort (keysOf rs)).Perm (keysOf rs) := by
  refine ⟨?_, pySort_sorted _, pySort_perm _⟩
  rw [renderTable]
  congr 1
  congr 1
  apply List.map_congr_left
  intro c hc
  have hmem : c ∈ keysOf rs := (pySort_perm (keysOf rs)).mem_iff.mp hc
  obtain ⟨m, hm⟩ := findVal_of_mem_keys rs c hmem
  rw [hm, Option.getD_some]
  exact rowStr_claim (pySort tests) c rs m hm

/-- Counterexample for claim C4: on a real run the rendered table ends each
row with a tab before the newline, while the rendering the claim words
describe does not, so the two differ. -/
theorem c4_counterexample :
    mainOut [lineBasic] = .ok (renderTable [lc "f"] [(lc "c", [(lc "f", 5)])]) ∧
    renderTable [lc "f"] [(lc "c", [(lc "f", 5)])] ≠
      claimRender4 [lc "f"] [(lc "c", [(lc "f", 5)])] :=
  ⟨by decide, by decide⟩

theorem processToks_some (collection tok2 : LC) :
    processToks (some collection) (some tok2) =
      match gasValue tok2 with
      | .err e => .error e
      | .ok gas =>
        match adjustGas collection ((splitList parenL tok2).headD []) gas with
        | .err e => .error e
        | .ok (g2, adj) => .ok collection ((splitList parenL tok2).headD []) g2 adj := rfl

theorem mintDesc_test (n g : Nat) :
    (splitList parenL (mintDesc n g)).headD [] = mintL ++ natStr n := by
  have hnotmem : ∀ c ∈ mintL ++ natStr n, c ≠ '(' := by
    intro c hc
    rcases List.mem_append.mp hc with h | h
    · have hm : ∀ x ∈ mintL, x ≠ '(' := by decide
      exact hm c h
    · exact natStr_ne_char n '(' (by decide) c h
  have hb : breakAt parenL (mintDesc n g) =
      some (mintL ++ natStr n, lc ") (gas" ++ (colonSpL ++ (natStr g ++ lc ")"))) := by
    unfold mintDesc
    rw [show parenL = '(' :: ([] : LC) from by decide]
    exact breakAt_boundary '(' [] _ _ hnotmem
  rw [headD_splitList, hb]

theorem mintDesc_gas (n g : Nat) : gasValue (mintDesc n g) = .ok ((g : Int)) := by
  have hA : ∀ c ∈ (mintL ++ natStr n) ++ (parenL ++ lc ") (gas"), c ≠ ':' := by
    intro c hc
    rcases List.mem_append.mp hc with h | h
    · rcases List.mem_append.mp h with h2 | h2
      · have hm : ∀ x ∈ mintL, x ≠ ':' := by decide
        exact hm c h2
      · exact natStr_ne_char n ':' (by decide) c h2
    · have hp : ∀ x ∈ parenL ++ lc ") (gas", x ≠ ':' := by decide
      exact hp c h
  have hB : ∀ c ∈ natStr g ++ lc ")", c ≠ ':' := by
    intro c hc
    rcases List.mem_append.mp hc with h | h
    · exact natStr_ne_char g ':' (by decide) c h
    · have hq : ∀ x ∈ lc ")", x ≠ ':' := by decide
      exact hq c h
  have hregroup : mintDesc n g =
      ((mintL ++ natStr n) ++ (parenL ++ lc ") (gas")) ++ (colonSpL ++ (natStr g ++ lc ")")) := by
    unfold mintDesc
    simp [List.append_assoc]
  have hsplit : splitList colonSpL (mintDesc n g) =
      [(mintL ++ natStr n) ++ (parenL ++ lc ") (gas"), natStr g ++ lc ")"] := by
    rw [hregroup, show colonSpL = ':' :: (' ' :: ([] : LC)) from by decide]
    exact splitList_boundary ':' (' ' :: []) _ _ hA hB
  have hclean : cleanGasTok (natStr g ++ lc ")") = natStr g := by
    unfold cleanGasTok
    rw [trimPy_eq_self]
    · rw [List.filter_append]
      have h1 : (natStr g).filter (fun c => c ≠ ')') = natStr g := by
        rw [List.filter_eq_self]
        intro c hc
        exact decide_eq_true (natStr_ne_char g ')' (by decide) c hc)
      have h2 : (lc ")").filter (fun c => c ≠ ')') = [] := by decide
      rw [h1, h2, List.append_nil]
    · intro c hc
      rcases List.mem_append.mp hc with h | h
      · exact isPySpace_false_of_digit c (natStr_chars g c h)
      · have hw : ∀ x ∈ lc ")", isPySpace x = false := by decide
        exact hw c h
  unfold gasValue
  rw [hsplit]
  simp only [List.get?_cons_succ, List.get?_cons_zero]
  rw [hclean, pyInt_natStr]

theorem adjustGas_mint (c : LC) (n : Nat) (gas : Int) (hc : c ∈ collectionsToAdjust) :
    adjustGas c (mintL ++ natStr n) gas = .ok (gas + ((n : Int) - 1) * intrinsicGas, true) := by
  have hcontains : collectionsToAdjust.contains c = true := List.elem_eq_true_of_mem hc
  have hpre : mintL.isPrefixOf (mintL ++ natStr n) = true := isPrefixOf_append_self _ _
  have hsplit : splitList mintL (mintL ++ natStr n) = [[], natStr n] := by
    have h0 := splitList_boundary 'm' (lc "int") [] (natStr n) (by simp)
      (natStr_ne_char n 'm' (by decide))
    rw [show 'm' :: lc "int" = mintL from by decide] at h0
    simpa using h0
  unfold adjustGas
  simp only [hcontains, hpre, Bool.and_self, if_true]
  rw [hsplit]
  simp only [List.get?_cons_succ, List.get?_cons_zero]
  rw [pyInt_natStr]

/-- Claim C1: for a collection in the fixed adjustment set and a benchmark
whose test name is mint followed by the decimal numeral of n, with raw gas
value g, the measurement produced (and hence the value recorded in the
table) is g + (n - 1) * 21000 for every n at least 1, and in particular
n = 1 leaves the raw value unchanged. -/
theorem c1_adjustment_law :
    (∀ (c : LC) (n g : Nat), c ∈ collectionsToAdjust → 1 ≤ n →
      processToks (some c) (some (mintDesc n g)) =
        .ok c (mintL ++ natStr n) ((g : Int) + ((n : Int) - 1) * 21000) true) ∧
    (∀ (c : LC) (g : Nat), c ∈ collectionsToAdjust →
      processToks (some c) (some (mintDesc 1 g)) =
        .ok c (mintL ++ natStr 1) ((g : Int)) true) := by
  have main : ∀ (c : LC) (n g : Nat), c ∈ collectionsToAdjust → 1 ≤ n →
      processToks (some c) (some (mintDesc n g)) =
        .ok c (mintL ++ natStr n) ((g : Int) + ((n : Int) - 1) * 21000) true := by
    intro c n g hc hn
    rw [processToks_some, mintDesc_gas n g]
    dsimp only
    rw [mintDesc_test n g, adjustGas_mint c n ((g : Int)) hc]
    rfl
  refine ⟨main, ?_⟩
  intro c g hc
  have h1 := main c 1 g hc le_rfl
  simpa using h1

/-- Witness for claim C1: solmateErc721 mint2 with raw gas 50000 records
50000 + 21000 = 71000. -/
theorem c1_adjustment_law_witness :
    processToks (some (lc "solmateErc721")) (some (mintDesc 2 50000)) =
      .ok (lc "solmateErc721") (mintL ++ natStr 2) 71000 true :=
  (c1_adjustment_law.1 (lc "solmateErc721") 2 50000 (by decide) (by decide)).trans (by decide)

/-- Claim C7 (amended): when the adjustment applies, the count n is parsed
from the segment of the test name strictly between the first and the
second occurrence of mint, that is test.split("mint")[1], not from the
whole remainder after the prefix; when that segment is not a valid integer
literal the run dies with the ValueError from int.  For a test name of the
form mint followed by characters not containing the letter m, that segment
is exactly the remainder after the prefix. -/
theorem c7_mint_count (c ds : LC) (g : Int) (hc : c ∈ collectionsToAdjust)
    (hm : ∀ x ∈ ds, x ≠ 'm') :
    adjustGas c (mintL ++ ds) g =
      match pyInt ds with
      | none => .err (.valueError ds)
      | some n => .ok (g + (n - 1) * 21000, true) := by
  have hcontains : collectionsToAdjust.contains c = true := List.elem_eq_true_of_mem hc
  have hpre : mintL.isPrefixOf (mintL ++ ds) = true := isPrefixOf_append_self _ _
  have hsplit : splitList mintL (mintL ++ ds) = [[], ds] := by
    have h0 := splitList_boundary 'm' (lc "int") [] ds (by simp) hm
    rw [show 'm' :: lc "int" = mintL from by decide] at h0
    simpa using h0
  unfold adjustGas
  simp only [hcontains, hpre, Bool.and_self, if_true]
  rw [hsplit]
  rfl

/-- Witness for claim C7 (amended): test name mintx has the non numeric
segment x after the prefix, and the run dies with a ValueError naming x. -/
theorem c7_mint_count_witness :
    adjustGas (lc "edition") (mintL ++ lc "x") 100 = .err (.valueError (lc "x")) :=
  (c7_mint_count (lc "edition") (lc "x") 100 (by decide) (by decide)).trans (by decide)

/-- Counterexample for claim C7: for the test name mint2mint3 the remainder
after the mint prefix is 2mint3, which is not numeric, so the claim
demands a ParseError; the code instead parses the segment between the two
occurrences of mint, getting n = 2, raises nothing, and records
100 + (2 - 1) * 21000 = 21100. -/
theorem c7_counterexample :
    mintL.isPrefixOf (lc "mint2mint3") = true ∧
    pyInt ((lc "mint2mint3").drop mintL.length) = none ∧
    adjustGas (lc "edition") (lc "mint2mint3") 100 = .ok (21100, true) :=
  ⟨by decide, by decide, by decide⟩

/-- Claim C8 (amended): the gas token is parsed by the Python int builtin,
which accepts a sign, so a negative value can be recorded; a negative raw
gas value can only arise when the cleaned token starts, after stripping,
with a minus sign.  (The mint adjustment adds (n - 1) * 21000 afterwards
and can itself drive a recorded value negative for n below 1.) -/
theorem c8_gas_sign (tok2 : LC) (z : Int) (h : gasValue tok2 = .ok z) (hz : z < 0) :
    ∃ gtok rest, (splitList colonSpL tok2).get? 1 = some gtok ∧
      trimPy (cleanGasTok gtok) = '-' :: rest := by
  unfold gasValue at h
  cases hg : (splitList colonSpL tok2).get? 1 with
  | none =>
    rw [hg] at h
    simp at h
  | some gtok =>
    rw [hg] at h
    dsimp only at h
    cases hp : pyInt (cleanGasTok gtok) with
    | none =>
      rw [hp] at h
      simp at h
    | some v =>
      rw [hp] at h
      dsimp only at h
      have hv : v = z := by
        injection h
      subst hv
      unfold pyInt at hp
      cases ht : trimPy (cleanGasTok gtok) with
      | nil =>
        rw [ht] at hp
        simp at hp
      | cons c rest =>
        rw [ht] at hp
        dsimp only at hp
        by_cases hcm : c = '-'
        · exact ⟨gtok, rest, rfl, by rw [ht, hcm]⟩
        · rw [if_neg hcm] at hp
          by_cases hcp : c = '+'
          · rw [if_pos hcp] at hp
            cases hcore : pyIntCore rest with
            | none =>
              rw [hcore] at hp
              simp at hp
            | some m =>
              rw [hcore] at hp
              simp at hp
              omega
          · rw [if_neg hcp] at hp
            cases hcore : pyIntCore (c :: rest) with
            | none =>
              rw [hcore] at hp
              simp at hp
            | some m =>
              rw [hcore] at hp
              simp at hp
              omega

/-- Witness for claim C8 (amended): the descriptor with gas token -5 parses
to the negative value -5, and indeed its cleaned token starts with the
minus sign. -/
theorem c8_gas_sign_witness :
    ∃ gtok rest, (splitList colonSpL (lc "f() (gas: -5)")).get? 1 = some gtok ∧
      trimPy (cleanGasTok gtok) = '-' :: rest :=
  c8_gas_sign (lc "f() (gas: -5)") (-5) (by decide) (by decide)

/-- Counterexample for claim C8: the matched line with gas token -5 is
parsed successfully and the measurement gas -5, which is negative, is
recorded in the table, contradicting the claim that no measurement with
negative gas is ever recorded. -/
theorem c8_counterexample :
    processLine lineNeg = .ok (lc "c") (lc "f") (-5) false ∧
    parseFrom pInit [lineNeg] = .ok ⟨[lc "f"], [(lc "c", [(lc "f", -5)])], []⟩ ∧
    tableVal [(lc "c", [(lc "f", -5)])] (lc "c") (lc "f") = some (-5) ∧
    ((-5 : Int) < 0) :=
  ⟨by decide, by decide, by decide, by decide⟩

/-- Claim C5 (amended): the gas value is derived by splitting the test
descriptor at every occurrence of ": " (not at the five character marker
"gas: ") and taking the field between the first and second occurrence (to
the end when there is only one; an IndexError when there is none), then
stripping surrounding whitespace, deleting every ")" anywhere in the field
(not only a trailing one), and parsing with the Python int builtin. -/
theorem c5_gas_derivation (tok2 : LC) :
    resToOption (gasValue tok2) = amendedGas5 tok2 := by
  unfold gasValue amendedGas5
  rw [get1_splitList]
  cases h : breakAt colonSpL tok2 with
  | none => rfl
  | some pp =>
    obtain ⟨pre, post⟩ := pp
    dsimp only
    cases h2 : breakAt colonSpL post with
    | none =>
      dsimp only
      cases pyInt (cleanGasTok post) <;> rfl
    | some qq =>
      obtain ⟨pre2, post2⟩ := qq
      dsimp only
      cases pyInt (cleanGasTok pre2) <;> rfl

/-- Counterexample for claim C5: for the descriptor f(x: 1) (gas: 7) the
procedure of the claim finds the token after "gas: " and yields 7, while
the code splits at the first ": ", takes the field 1) (gas, removes the
parenthesis that is not trailing, and dies with a ValueError, so the
derived values differ. -/
theorem c5_counterexample :
    resToOption (gasValue (lc "f(x: 1) (gas: 7)")) ≠ claimGas5 (lc "f(x: 1) (gas: 7)") ∧
    claimGas5 (lc "f(x: 1) (gas: 7)") = some 7 ∧
    gasValue (lc "f(x: 1) (gas: 7)") = .err (.valueError (lc "1 (gas")) :=
  ⟨by decide, by decide, by decide⟩

theorem processToks_ne_skip (a b : Option LC) : processToks a b ≠ .skip := by
  intro h
  cases a with
  | none => exact LineOut.noConfusion h
  | some c =>
    cases b with
    | none => exact LineOut.noConfusion h
    | some t2 =>
      rw [processToks_some] at h
      cases hg : gasValue t2 with
      | err e =>
        rw [hg] at h
        exact LineOut.noConfusion h
      | ok gas =>
        rw [hg] at h
        dsimp only at h
        cases ha : adjustGas c ((splitList parenL t2).headD []) gas with
        | err e =>
          rw [ha] at h
          exact LineOut.noConfusion h
        | ok p =>
          obtain ⟨g2, adj⟩ := p
          rw [ha] at h
          exact LineOut.noConfusion h

/-- Claim C2 (amended): a line without the marker is skipped without error;
a line with the marker is never skipped; and a matched line that is
malformed in the sense the code actually checks (fewer than three
double-underscore segments, a third segment without the two character
separator ": ", or a gas token that the Python int builtin rejects after
stripping and parenthesis removal) makes the run die with an uncaught
IndexError or ValueError.  The original claim fails in two ways: the
structural condition is the ": " separator rather than the "gas: " marker
(see the counterexample), and the uncaught error does not carry the
offending input line. -/
theorem c2_error_behavior (line : LC) :
    (containsSub markerL line = false → processLine line = .skip) ∧
    (containsSub markerL line = true → processLine line ≠ .skip) ∧
    (containsSub markerL line = true →
      ((splitList dunderL line).length < 3 ∨
       (∃ t2, (splitList dunderL line).get? 2 = some t2 ∧
          (splitList colonSpL t2).length < 2) ∨
       (∃ t2 gtok, (splitList dunderL line).get? 2 = some t2 ∧
          (splitList colonSpL t2).get? 1 = some gtok ∧
          pyInt (cleanGasTok gtok) = none)) →
      ∃ e, processLine line = .error e) := by
  refine ⟨?_, ?_, ?_⟩
  · intro h
    rw [processLine, if_neg (by simp [h])]
  · intro h
    rw [processLine, if_pos h]
    exact processToks_ne_skip _ _
  · intro h hmal
    rw [processLine, if_pos h]
    rcases hmal with h1 | ⟨t2, ht2, h2⟩ | ⟨t2, gtok, ht2, hg, h3⟩
    · have h2n : (splitList dunderL line).get? 2 = none := List.get?_eq_none.mpr (by omega)
      cases hg1 : (splitList dunderL line).get? 1 with
      | none => exact ⟨.indexError, by rw [h2n]; rfl⟩
      | some c1 => exact ⟨.indexError, by rw [h2n]; rfl⟩
    · have hlen : 2 < (splitList dunderL line).length := by
        by_contra hle
        rw [List.get?_eq_none.mpr (by omega)] at ht2
        exact Option.noConfusion ht2
      obtain ⟨c1, hc1⟩ : ∃ c1, (splitList dunderL line).get? 1 = some c1 := by
        cases hx : (splitList dunderL line).get? 1 with
        | none =>
          rw [List.get?_eq_none] at hx
          omega
        | some y => exact ⟨y, rfl⟩
      refine ⟨.indexError, ?_⟩
      rw [hc1, ht2, processToks_some]
      have hnone : (splitList colonSpL t2).get? 1 = none := List.get?_eq_none.mpr (by omega)
      unfold gasValue
      rw [hnone]
    · have hlen : 2 < (splitList dunderL line).length := by
        by_contra hle
        rw [List.get?_eq_none.mpr (by omega)] at ht2
        exact Option.noConfusion ht2
      obtain ⟨c1, hc1⟩ : ∃ c1, (splitList dunderL line).get? 1 = some c1 := by
        cases hx : (splitList dunderL line).get? 1 with
        | none =>
          rw [List.get?_eq_none] at hx
          omega
        | some y => exact ⟨y, rfl⟩
      refine ⟨.valueError (cleanGasTok gtok), ?_⟩
      rw [hc1, ht2, processToks_some]
      unfold gasValue
      rw [hg]
      dsimp only
      rw [h3]

/-- Witness for claim C2 (amended): a matched line with a single segment
makes the run die with an error instead of being skipped. -/
theorem c2_error_behavior_witness :
    ∃ e, processLine lineBad = .error e :=
  (c2_error_behavior lineBad).2.2 (by decide) (Or.inl (by decide))

/-- Counterexample for claim C2: this line contains the marker and lacks
the "gas: " marker, one of the malformed shapes of the claim, so the claim
demands a failure with a ParseError; the code instead splits its third
segment at the ": " inside f(x: 5), parses the 5, and records the
measurement without any error. -/
theorem c2_counterexample :
    containsSub markerL lineNoGasMarker = true ∧
    containsSub gasMarkerL lineNoGasMarker = false ∧
    processLine lineNoGasMarker = .ok (lc "c") (lc "f") 5 false :=
  ⟨by decide, by decide, by decide⟩

/-- Claim C3 (amended): when at least one measurement exists the header row
is exactly the label collection followed by every distinct test name seen
in the matched lines, each exactly once, sorted ascending, all separated
by tabs and ended by a newline; when no measurement exists the code emits
a trailing tab after the label (see the counterexample), so the header is
the label, a tab and the newline. -/
theorem c3_header_row (lines : List LC) (st : PSt) (h : parseFrom pInit lines = .ok st) :
    (st.tests ≠ [] →
      headerStr st.tests = List.intercalate [tabC] (lc "collection" :: pySort st.tests) ++ [nlC]) ∧
    (st.tests = [] → headerStr st.tests = lc "collection" ++ [tabC] ++ [nlC]) ∧
    List.Sorted sLe (pySort st.tests) ∧
    (pySort st.tests).Nodup ∧
    (∀ t, t ∈ pySort st.tests ↔ ∃ l ∈ lines, ∃ c g a, processLine l = .ok c t g a) := by
  refine ⟨?_, ?_, pySort_sorted _, ?_, ?_⟩
  · intro hne
    have hperm := pySort_perm st.tests
    have hne2 : pySort st.tests ≠ [] := by
      intro he
      rw [he] at hperm
      exact hne (hperm.symm.eq_nil)
    obtain ⟨b, l2, hbl⟩ := List.exists_cons_of_ne_nil hne2
    rw [headerStr, hbl, intercalate_cons_cons]
  · intro he
    rw [headerStr, he]
    simp [pySort, List.intercalate]
  · exact (pySort_perm st.tests).nodup_iff.mpr
      (parseFrom_tests_nodup lines pInit st h (by simp [pInit]))
  · intro t
    rw [(pySort_perm st.tests).mem_iff]
    rw [parseFrom_tests_mem lines pInit st t h]
    simp [pInit]

/-- Witness for claim C3 (amended): with the single measurement of
lineBasic the header row is collection, a tab and the test name f, ended
by the newline. -/
theorem c3_header_row_witness :
    headerStr ([lc "f"]) =
      List.intercalate [tabC] (lc "collection" :: pySort [lc "f"]) ++ [nlC] :=
  (c3_header_row [lineBasic] ⟨[lc "f"], [(lc "c", [(lc "f", 5)])], []⟩ (by decide)).1 (by decide)

/-- Counterexample for claim C3: on the empty input the code prints the
header row collection followed by a tab and the newline, while the header
the claim words describe is the bare label followed by the newline; the
two differ, so the claim fails for inputs with no measurements. -/
theorem c3_counterexample :
    mainOut [] = .ok (headerStr []) ∧
    headerStr [] ≠ List.intercalate [tabC] (lc "collection" :: pySort []) ++ [nlC] :=
  ⟨by decide, by decide⟩

/-- Claim C9 (amended): during parsing the script prints one diagnostic
line per applied adjustment, containing the collection name, the test name
and the adjusted gas value, but it prints them to the same standard output
stream that afterwards carries the table (they precede the header); the
script writes to no other stream, so no auxiliary message stream receives
anything. -/
theorem c9_diagnostics (lines : List LC) (st : PSt) (h : parseFrom pInit lines = .ok st) :
    st.diags = specDiags lines ∧
    mainOut lines = .ok (st.diags ++ renderTable st.tests st.results) ∧
    (∀ (c t : LC) (g : Int),
      containsSub c (diagMsg c t g) = true ∧
      containsSub t (diagMsg c t g) = true ∧
      containsSub (intStr g) (diagMsg c t g) = true) := by
  refine ⟨?_, ?_, ?_⟩
  · have hd := parseFrom_diags lines pInit st h
    simpa [pInit] using hd
  · rw [mainOut, h]
  · intro c t g
    refine ⟨?_, ?_, ?_⟩
    · have lifted := containsSub_append_left c
        (c ++ (lc " " ++ (t ++ (lc " to " ++ (intStr g ++ lc "\n")))))
        (lc "adjusted gas for ")
        (containsSub_self_append c _)
      rw [diagMsg]
      simpa [List.append_assoc] using lifted
    · have lifted := containsSub_append_left t
        (t ++ (lc " to " ++ (intStr g ++ lc "\n")))
        ((lc "adjusted gas for " ++ c) ++ lc " ")
        (containsSub_self_append t _)
      rw [diagMsg]
      simpa [List.append_assoc] using lifted
    · have lifted := containsSub_append_left (intStr g)
        (intStr g ++ lc "\n")
        ((((lc "adjusted gas for " ++ c) ++ lc " ") ++ t) ++ lc " to ")
        (containsSub_self_append (intStr g) _)
      rw [diagMsg]
      simpa [List.append_assoc] using lifted

/-- Witness for claim C9 (amended): for the single mint1 line the parsing
phase prints exactly the diagnostic line for the adjustment. -/
theorem c9_diagnostics_witness :
    (PSt.mk [lc "mint1"] [(lc "edition", [(lc "mint1", 7)])]
        (lc "adjusted gas for edition mint1 to 7\n")).diags = specDiags [lineMint1] :=
  (c9_diagnostics [lineMint1]
    ⟨[lc "mint1"], [(lc "edition", [(lc "mint1", 7)])],
      lc "adjusted gas for edition mint1 to 7\n"⟩ (by decide)).1

/-- Counterexample for claim C9: on the mint1 input the whole standard
output of the run starts with the adjustment diagnostic and then carries
the table, so the diagnostic is written to the primary tabular output
stream, not to a distinct auxiliary stream; the output the claim predicts
(the bare table) is not what the run writes. -/
theorem c9_counterexample :
    mainOut [lineMint1] =
      .ok (lc "adjusted gas for edition mint1 to 7\ncollection\tmint1\nedition\t7\t\n") ∧
    mainOut [lineMint1] ≠ .ok (lc "collection\tmint1\nedition\t7\t\n") :=
  ⟨by decide, by decide⟩
